import Mathlib

/-!
Verification development for the Voltcraft energy-log decoder and its
statistics engine (`src/voltcraft/data.rs`, `src/voltcraft/stats.rs`).

Modelling conventions:
* A byte buffer is a `List Nat` (each entry a byte value).
* `chrono::DateTime<Local>` values are modelled as absolute instants measured
  in whole minutes (`Int`); all timestamps the decoder produces have minute
  resolution, and all `chrono::Duration` arithmetic in the sources happens in
  whole minutes.  The system's local timezone is modelled by `TzModel`, a map
  from local wall-clock minutes to the corresponding absolute instant
  (`none` when `chrono` would panic because the local time does not exist).
* `f64` quantities (volts, amps, cos phi, kW, kVA) are modelled as exact
  rationals; every claim settled here depends only on equalities and order
  comparisons of values decoded from bytes, not on rounding behaviour.
* A Rust panic (out-of-bounds slice, failed `assert!`, `unwrap` on `None`,
  `chrono` date panic) is modelled as an explicit `Panic` outcome: the
  function in question does not return normally there.
-/

namespace Voltcraft

/-! ## Calendar arithmetic (model of the `chrono` civil calendar) -/

def isLeapYear (y : Nat) : Bool :=
  y % 4 == 0 && (y % 100 != 0 || y % 400 == 0)

def daysInMonth (y m : Nat) : Nat :=
  if m == 2 then (if isLeapYear y then 29 else 28)
  else if m == 4 || m == 6 || m == 9 || m == 11 then 30
  else 31

/-- Days in year `y` that precede the first day of month `m`. -/
def daysBeforeMonth (y m : Nat) : Nat :=
  (List.range (m - 1)).foldl (fun s i => s + daysInMonth y (i + 1)) 0

/-- Days from 2000-01-01 to the civil date `y-m-d` (for `y ≥ 2000`). -/
def daysSince2000 (y m d : Nat) : Nat :=
  (List.range (y - 2000)).foldl
      (fun s i => s + (if isLeapYear (2000 + i) then 366 else 365)) 0
    + daysBeforeMonth y m + (d - 1)

/-- Local wall-clock minutes since 2000-01-01 00:00 of the civil datetime. -/
def wallMinutes (y mo d h mi : Nat) : Int :=
  ((daysSince2000 y mo d : Nat) : Int) * 1440 + (h : Int) * 60 + (mi : Int)

/-- The validity condition `chrono`'s `ymd`/`and_hms` enforce (it panics on
invalid components). -/
def validTimestamp (mo d y h mi : Nat) : Prop :=
  1 ≤ mo ∧ mo ≤ 12 ∧ 1 ≤ d ∧ d ≤ daysInMonth (2000 + y) mo ∧ h ≤ 23 ∧ mi ≤ 59

instance (mo d y h mi : Nat) : Decidable (validTimestamp mo d y h mi) := by
  unfold validTimestamp; infer_instance

/-- The system's local timezone: maps local wall-clock minutes to the absolute
instant (in minutes).  `none` models `chrono` panicking because the local time
does not exist in that timezone (e.g. inside a DST spring-forward gap). -/
structure TzModel where
  toInstant : Int → Option Int

/-- A timezone in which wall clock and instant coincide (offset zero). -/
def utcTz : TzModel := ⟨fun w => some w⟩

/-- A fixed-offset timezone, `o` minutes ahead of `utcTz`. -/
def fixedTz (o : Int) : TzModel := ⟨fun w => some (w - o)⟩

/-! ## Data model (`PowerEvent` from `data.rs`) -/

structure PowerEvent where
  timestamp : Int
  voltage : ℚ
  current : ℚ
  power_factor : ℚ
  power : ℚ
  apparent_power : ℚ
deriving DecidableEq

/-! ## Decoder (`VoltcraftData` from `data.rs`) -/

/-- The ways `VoltcraftData::parse` can panic instead of returning. -/
inductive Panic where
  | bounds     -- out-of-bounds slice/index of `raw_data`
  | badTime    -- `chrono` panic in `ymd`/`and_hms` (invalid or nonexistent local time)
  | badVoltage -- failed voltage-range `assert!` in `decode_power`
deriving DecidableEq

inductive ParseResult where
  | ok (events : List PowerEvent)
  | invalidData          -- `Err("Invalid data file, probably not a Voltcraft file")`
  | panicked (p : Panic)
deriving DecidableEq

def MAGIC : List Nat := [0xE0, 0xC5, 0xEA]

def END_OF_DATA : List Nat := [0xFF, 0xFF, 0xFF, 0xFF]

/-- `VoltcraftData::decode_timestamp`: reads five bytes
(month, day, year-2000, hour, minute) and builds a `DateTime<Local>`. -/
def decode_timestamp (tz : TzModel) (buf : List Nat) (off : Nat) :
    Except Panic Int :=
  if off + 5 ≤ buf.length then
    let mo := buf.getD off 0
    let d := buf.getD (off + 1) 0
    let y := buf.getD (off + 2) 0
    let h := buf.getD (off + 3) 0
    let mi := buf.getD (off + 4) 0
    if validTimestamp mo d y h mi then
      match tz.toInstant (wallMinutes (2000 + y) mo d h mi) with
      | some t => Except.ok t
      | none => Except.error Panic.badTime
    else Except.error Panic.badTime
  else Except.error Panic.bounds

/-- `VoltcraftData::decode_power`: voltage (2 bytes BE, ÷10), current
(2 bytes BE, ÷1000), power factor (1 byte, ÷100); derives kW and kVA.
The two `assert!` calls bound the decoded voltage strictly between
150.0 V and 250.0 V, i.e. the raw 16-bit value strictly between 1500
and 2500; checks happen in source order. -/
def decode_power (buf : List Nat) (off : Nat) :
    Except Panic (ℚ × ℚ × ℚ × ℚ × ℚ) :=
  if off + 2 ≤ buf.length then
    let vraw := buf.getD off 0 * 256 + buf.getD (off + 1) 0
    if 1500 < vraw then
      if vraw < 2500 then
        if off + 4 ≤ buf.length then
          let craw := buf.getD (off + 2) 0 * 256 + buf.getD (off + 3) 0
          if off + 5 ≤ buf.length then
            let praw := buf.getD (off + 4) 0
            let voltage : ℚ := (vraw : ℚ) / 10
            let current : ℚ := (craw : ℚ) / 1000
            let power_factor : ℚ := (praw : ℚ) / 100
            Except.ok (voltage, current, power_factor,
              voltage * current * power_factor / 1000,
              voltage * current / 1000)
          else Except.error Panic.bounds
        else Except.error Panic.bounds
      else Except.error Panic.badVoltage
    else Except.error Panic.badVoltage
  else Except.error Panic.bounds

/-- The loop body of `VoltcraftData::parse`: at each offset, first test for a
block header (`is_datablock`, a 3-byte slice), then for the end-of-data marker
(`is_endofdata`, a 4-byte slice), otherwise decode a 5-byte measurement
record.  Each slice/index out of range is a Rust panic. -/
def parseLoop (tz : TzModel) (buf : List Nat) (off : Nat) (start : Int)
    (mi : Nat) (acc : List PowerEvent) : ParseResult :=
  if h3 : off + 3 ≤ buf.length then
    if (buf.drop off).take 3 = MAGIC then
      match decode_timestamp tz buf (off + 3) with
      | Except.error p => ParseResult.panicked p
      | Except.ok t => parseLoop tz buf (off + 8) t 0 acc
    else if h4 : off + 4 ≤ buf.length then
      if (buf.drop off).take 4 = END_OF_DATA then ParseResult.ok acc
      else
        match decode_power buf off with
        | Except.error p => ParseResult.panicked p
        | Except.ok pd =>
          parseLoop tz buf (off + 5) start (mi + 1)
            (acc ++ [⟨start + (mi : Int), pd.1, pd.2.1, pd.2.2.1,
                      pd.2.2.2.1, pd.2.2.2.2⟩])
    else ParseResult.panicked Panic.bounds
  else ParseResult.panicked Panic.bounds
termination_by buf.length - off
decreasing_by
  all_goals omega

/-- `VoltcraftData::parse`.  The initial `start_time` is
`Local.ymd(2000,1,1).and_hms(0,0,0)` (wall minute 0); if the buffer does not
begin with the magic header the function returns the invalid-data error
(when fewer than 3 bytes exist, the header check itself is an out-of-bounds
slice, i.e. a panic). -/
def parse (tz : TzModel) (buf : List Nat) : ParseResult :=
  match tz.toInstant (wallMinutes 2000 1 1 0 0) with
  | none => ParseResult.panicked Panic.badTime
  | some s0 =>
    if 3 ≤ buf.length then
      if buf.take 3 = MAGIC then parseLoop tz buf 0 s0 0 []
      else ParseResult.invalidData
    else ParseResult.panicked Panic.bounds

/-! ## Statistics engine (`VoltcraftStatistics` from `stats.rs`) -/

/-- Rust's `Iterator::max_by` over a nonempty iterator `x :: xs`: folds left,
replacing the current maximum whenever the new element compares greater *or
equal*, so among equal maxima the last element wins. -/
def maxBySel {β : Type} [LinearOrder β] (f : PowerEvent → β) (x : PowerEvent)
    (xs : List PowerEvent) : PowerEvent :=
  xs.foldl (fun acc y => if f y < f acc then acc else y) x

/-- Rust's `Iterator::min_by` over a nonempty iterator `x :: xs`: folds left,
replacing the current minimum only on a strictly smaller element, so among
equal minima the first element wins. -/
def minBySel {β : Type} [LinearOrder β] (f : PowerEvent → β) (x : PowerEvent)
    (xs : List PowerEvent) : PowerEvent :=
  xs.foldl (fun acc y => if f y < f acc then y else acc) x

structure PowerStats where
  total_active_power : ℚ
  avg_active_power : ℚ
  max_active_power : PowerEvent
  total_apparent_power : ℚ
  avg_apparent_power : ℚ
  max_apparent_power : PowerEvent
  min_voltage : PowerEvent
  max_voltage : PowerEvent
  avg_voltage : ℚ
  total_duration : Int
deriving DecidableEq

/-- `VoltcraftStatistics::compute_stats`.  On an empty slice the Rust code
calls `.max_by(..).unwrap()` on `None` and panics; this is modelled by
returning `none`. -/
def compute_stats (power_items : List PowerEvent) : Option PowerStats :=
  match power_items with
  | [] => none
  | x :: xs =>
    let l := x :: xs
    let power_sum := l.foldl (fun s e => s + e.power) 0
    let apparent_power_sum := l.foldl (fun s e => s + e.apparent_power) 0
    let voltage_sum := l.foldl (fun s e => s + e.voltage) 0
    let start := (minBySel (fun e => e.timestamp) x xs).timestamp
    let stop := (maxBySel (fun e => e.timestamp) x xs).timestamp
    some {
      total_active_power := power_sum / 60
      avg_active_power := power_sum / (l.length : ℚ)
      max_active_power := maxBySel (fun e => e.power) x xs
      total_apparent_power := apparent_power_sum / 60
      avg_apparent_power := apparent_power_sum / (l.length : ℚ)
      max_apparent_power := maxBySel (fun e => e.apparent_power) x xs
      min_voltage := minBySel (fun e => e.voltage) x xs
      max_voltage := maxBySel (fun e => e.voltage) x xs
      avg_voltage := voltage_sum / (l.length : ℚ)
      total_duration := (stop - start) + 1 }

/-- `timestamp.date()` of an instant: the local calendar day.  The statistics
engine runs under one fixed system timezone; the model fixes the offset-zero
timezone (`utcTz`), under which the calendar day is the floor of the instant
divided by the minutes per day. -/
def dateOf (t : Int) : Int := Int.fdiv t 1440

/-- `VoltcraftStatistics::distinct_days`: the set of calendar dates present
(via a `HashSet`), sorted ascending. -/
def distinct_days (power_data : List PowerEvent) : List Int :=
  List.insertionSort (· ≤ ·) ((power_data.map (fun e => dateOf e.timestamp)).dedup)

/-- `VoltcraftStatistics::filter_power_data`: the events of one calendar day,
in input order. -/
def filter_power_data (power_data : List PowerEvent) (day : Int) :
    List PowerEvent :=
  power_data.filter (fun e => dateOf e.timestamp == day)

structure DailyPowerInfo where
  date : Int
  stats : Option PowerStats
deriving DecidableEq

/-- `VoltcraftStatistics::daily_stats`: one `DailyPowerInfo` per distinct
date, in date order (`stats = none` would model the empty-slice panic of
`compute_stats`; it never occurs because every bucket is nonempty). -/
def daily_stats (power_data : List PowerEvent) : List DailyPowerInfo :=
  (distinct_days power_data).map fun d =>
    { date := d, stats := compute_stats (filter_power_data power_data d) }

structure OverallPowerInfo where
  start : Int
  «end» : Int
  stats : PowerStats
  avg_daily_power_consumption : Option ℚ
deriving DecidableEq

/-- `VoltcraftStatistics::overall_stats`.  On an empty slice the Rust code
panics (`compute_stats` unwrap, then `first().unwrap()`); modelled as `none`.
`Duration::days(1)` is 1440 minutes and `num_seconds` of a span of `m`
minutes is `60 * m`. -/
def overall_stats (power_data : List PowerEvent) : Option OverallPowerInfo :=
  match compute_stats power_data, power_data.head?, power_data.getLast? with
  | some power_stats, some f, some l =>
    let total_duration := l.timestamp - f.timestamp
    some {
      start := f.timestamp
      «end» := l.timestamp
      stats := power_stats
      avg_daily_power_consumption :=
        if 1440 ≤ total_duration then
          some (power_stats.total_active_power /
            (((total_duration * 60 : Int) : ℚ) / 86400))
        else none }
  | _, _, _ => none

structure PowerBlackout where
  timestamp : Int
  duration : Int
deriving DecidableEq

/-- `VoltcraftStatistics::compute_blackouts`: scan consecutive pairs
(`tuple_windows`); a gap of more than one minute yields a blackout starting
one minute after the earlier event and lasting the gap minus one minute. -/
def compute_blackouts : List PowerEvent → List PowerBlackout
  | pe1 :: pe2 :: rest =>
    (if 1 < pe2.timestamp - pe1.timestamp then
      [{ timestamp := pe1.timestamp + 1,
         duration := pe2.timestamp - pe1.timestamp - 1 }]
    else []) ++ compute_blackouts (pe2 :: rest)
  | _ => []

structure BlackoutInfo where
  blackout_count : Nat
  total_blackout_duration : Int
  blackouts : List PowerBlackout
deriving DecidableEq

/-- `VoltcraftStatistics::blackout_stats`. -/
def blackout_stats (power_data : List PowerEvent) : BlackoutInfo :=
  let blackouts := compute_blackouts power_data
  { blackout_count := blackouts.length
    total_blackout_duration := blackouts.foldl (fun s x => s + x.duration) 0
    blackouts := blackouts }

/-! ## Specification-side vocabulary used to state the claims -/

/-- The 16-bit big-endian voltage word of a 5-byte measurement record. -/
def recVoltRaw (r : List Nat) : Nat := r.getD 0 0 * 256 + r.getD 1 0

/-- A measurement record the decoder accepts: five bytes whose voltage word
lies strictly between the `assert!` bounds 1500 and 2500. -/
def goodRec (r : List Nat) : Prop :=
  r.length = 5 ∧ 1500 < recVoltRaw r ∧ recVoltRaw r < 2500

instance (r : List Nat) : Decidable (goodRec r) := by
  unfold goodRec; infer_instance

/-- The event `decode_power` produces for record `r`, stamped with instant
`t`. -/
def recEvent (r : List Nat) (t : Int) : PowerEvent :=
  let voltage : ℚ := ((r.getD 0 0 * 256 + r.getD 1 0 : Nat) : ℚ) / 10
  let current : ℚ := ((r.getD 2 0 * 256 + r.getD 3 0 : Nat) : ℚ) / 1000
  let power_factor : ℚ := ((r.getD 4 0 : Nat) : ℚ) / 100
  ⟨t, voltage, current, power_factor,
    voltage * current * power_factor / 1000, voltage * current / 1000⟩

/-- The events of a run of records starting at minute counter `mi` within a
block whose start instant is `start`. -/
def recsEvents (start : Int) (mi : Nat) : List (List Nat) → List PowerEvent
  | [] => []
  | r :: rs => recEvent r (start + (mi : Int)) :: recsEvents start (mi + 1) rs

/-- The events of one block: each record stamped block-start plus its index in
minutes (empty when the block timestamp would not decode). -/
def blockEvents (tz : TzModel) (ts : List Nat) (recs : List (List Nat)) :
    List PowerEvent :=
  match decode_timestamp tz ts 0 with
  | Except.error _ => []
  | Except.ok t => recsEvents t 0 recs

/-- Byte encoding of one block: magic header, 5 timestamp bytes, records. -/
def encBlock (b : List Nat × List (List Nat)) : List Nat :=
  MAGIC ++ b.1 ++ b.2.flatten

/-- Byte encoding of a whole valid buffer: concatenated blocks followed by
the end-of-data marker. -/
def encBuffer (blocks : List (List Nat × List (List Nat))) : List Nat :=
  (blocks.map encBlock).flatten ++ END_OF_DATA

/-- `m` is the last element of `l` attaining the maximum of `f`: everything
before it is `≤`, everything after it is `<`. -/
def lastArgmax (f : PowerEvent → ℚ) (l : List PowerEvent) (m : PowerEvent) :
    Prop :=
  ∃ l1 l2, l = l1 ++ m :: l2 ∧ (∀ y ∈ l1, f y ≤ f m) ∧ (∀ y ∈ l2, f y < f m)

/-- `m` is the first element of `l` attaining the minimum of `f`: everything
before it is `>`, everything after it is `≥`. -/
def firstArgmin (f : PowerEvent → ℚ) (l : List PowerEvent) (m : PowerEvent) :
    Prop :=
  ∃ l1 l2, l = l1 ++ m :: l2 ∧ (∀ y ∈ l1, f m < f y) ∧ (∀ y ∈ l2, f m ≤ f y)

/-- Shift an event's instant by `o` minutes. -/
def shiftEvent (o : Int) (e : PowerEvent) : PowerEvent :=
  { e with timestamp := e.timestamp + o }

/-- Shift every decoded event's instant by `o` minutes; errors and panics are
unchanged. -/
def shiftResult (o : Int) : ParseResult → ParseResult
  | ParseResult.ok events => ParseResult.ok (events.map (shiftEvent o))
  | r => r

/-! ## Concrete inputs used by counterexamples and failing-input theorems -/

/-- A truncated buffer: the magic header with nothing after it. -/
def truncatedBuf : List Nat := [0xE0, 0xC5, 0xEA]

/-- A structurally valid buffer (header, timestamp 2014-01-01 00:00, one
record, end marker) whose record encodes 10.0 V — outside the plausible
voltage range. -/
def lowVoltageBuf : List Nat :=
  MAGIC ++ [1, 1, 14, 0, 0] ++ [0, 100, 0, 0, 0] ++ END_OF_DATA

/-- A valid buffer with one in-range record (179.2 V, 0 A). -/
def oneRecordBuf : List Nat :=
  MAGIC ++ [1, 1, 14, 0, 0] ++ [7, 0, 0, 0, 0] ++ END_OF_DATA

/-- A buffer whose five timestamp bytes claim month 13. -/
def badMonthBuf : List Nat :=
  MAGIC ++ [13, 1, 14, 0, 0] ++ END_OF_DATA

/-- Two distinct events that tie on voltage (and on every other measured
quantity); they differ only in their timestamps. -/
def tieEv1 : PowerEvent := ⟨0, 230, 1, 1, 230 / 1000, 230 / 1000⟩

def tieEv2 : PowerEvent := ⟨1, 230, 1, 1, 230 / 1000, 230 / 1000⟩

/-! # Theorems -/

/-- C2 (failing input): on a buffer that begins with the block header but is
truncated before any end-of-data marker, `parse` does not return a distinct
`Truncated` error — it reads out of the buffer's bounds and panics (here in
`decode_timestamp`, indexing past the 3-byte buffer).  No `Truncated` error
value exists anywhere in the decoder (`ParseResult` faithfully has only the
one invalid-data error). -/
theorem parse_truncated_panics :
    parse utcTz truncatedBuf = ParseResult.panicked Panic.bounds := by
  simp [parse, parseLoop, decode_timestamp, utcTz, truncatedBuf, MAGIC]

/-- C6 (failing input): on a structurally valid buffer whose single record
decodes to 10.0 V, the voltage-range `assert!` in `decode_power` aborts the
decode with a panic instead of returning the full event sequence. -/
theorem parse_out_of_range_voltage_panics :
    parse utcTz lowVoltageBuf = ParseResult.panicked Panic.badVoltage := by
  simp [parse, parseLoop, decode_timestamp, decode_power, utcTz, lowVoltageBuf,
    MAGIC, END_OF_DATA, validTimestamp, daysInMonth, isLeapYear]

/-- C10: on a buffer that begins with a valid block header whose five
timestamp bytes do not form a valid calendar date (month 13), decoding the
timestamp panics (`chrono`'s `ymd` rejects the date), so `parse` terminates
neither with events nor with an error value. -/
theorem parse_invalid_timestamp_panics :
    parse utcTz badMonthBuf = ParseResult.panicked Panic.badTime := by
  simp [parse, parseLoop, decode_timestamp, utcTz, badMonthBuf, MAGIC,
    validTimestamp]

/-- C4 (failing input, zero events): statistics over an empty event sequence
do not fail with an `EmptyInput` error — no such error exists.
`compute_stats` and `overall_stats` panic (`unwrap` on `None`, modelled by
`none`), while `daily_stats` and `blackout_stats` silently return empty
aggregates. -/
theorem empty_input_behavior :
    compute_stats [] = none ∧ overall_stats [] = none ∧ daily_stats [] = [] ∧
      blackout_stats [] =
        { blackout_count := 0, total_blackout_duration := 0, blackouts := [] } := by
  refine ⟨rfl, rfl, rfl, rfl⟩

/-- C5 (counterexample): two events tie for minimum voltage, yet
`compute_stats` selects the first-occurring one (`Iterator::min_by` keeps the
first among equal minima), not the last-occurring one the claim states. -/
theorem min_voltage_tie_cex :
    tieEv1.voltage = tieEv2.voltage ∧ tieEv1 ≠ tieEv2 ∧
      (compute_stats [tieEv1, tieEv2]).map (fun s => s.min_voltage) =
        some tieEv1 := by
  refine ⟨rfl, by decide, rfl⟩

/-- C9 (counterexample): the same buffer parsed under two different system
timezone settings (offset 0 and offset +60 minutes) yields different event
sequences, so `parse` is not a function of the byte buffer alone. -/
theorem parse_timezone_dependent_cex :
    parse utcTz oneRecordBuf ≠ parse (fixedTz 60) oneRecordBuf := by
  simp [parse, parseLoop, decode_timestamp, decode_power, utcTz, fixedTz,
    oneRecordBuf, MAGIC, END_OF_DATA, validTimestamp, daysInMonth, isLeapYear,
    wallMinutes, daysSince2000, daysBeforeMonth, PowerEvent.mk.injEq]
  omega

lemma compute_blackouts_filterMap (evs : List PowerEvent) :
    compute_blackouts evs = (evs.zip evs.tail).filterMap (fun p =>
      if 1 < p.2.timestamp - p.1.timestamp then
        some ⟨p.1.timestamp + 1, p.2.timestamp - p.1.timestamp - 1⟩
      else none) := by
  induction evs with
  | nil => rfl
  | cons a tail ih =>
    cases tail with
    | nil => rfl
    | cons b rest =>
      simp only [compute_blackouts, List.tail_cons, List.zip_cons_cons,
        List.filterMap_cons]
      rw [ih]
      simp only [List.tail_cons]
      split <;> simp

lemma compute_blackouts_eq_nil_iff (evs : List PowerEvent)
    (hsorted : List.Chain' (fun a b => a.timestamp < b.timestamp) evs) :
    compute_blackouts evs = [] ↔
      ∀ p ∈ evs.zip evs.tail, p.2.timestamp - p.1.timestamp = 1 := by
  induction evs with
  | nil => simp [compute_blackouts]
  | cons a tail ih =>
    cases tail with
    | nil => simp [compute_blackouts]
    | cons b rest =>
      rw [List.chain'_cons] at hsorted
      obtain ⟨hab, hrest⟩ := hsorted
      simp only [compute_blackouts, List.tail_cons, List.zip_cons_cons,
        List.append_eq_nil, List.mem_cons, forall_eq_or_imp]
      rw [ih hrest]
      constructor
      · rintro ⟨h1, h2⟩
        refine ⟨?_, by simpa [List.tail_cons] using h2⟩
        by_cases hgap : 1 < b.timestamp - a.timestamp
        · simp [hgap] at h1
        · omega
      · rintro ⟨h1, h2⟩
        refine ⟨?_, by simpa [List.tail_cons] using h2⟩
        simp [show ¬ 1 < b.timestamp - a.timestamp by omega]

lemma compute_blackouts_pos (evs : List PowerEvent) :
    ∀ b ∈ compute_blackouts evs, 0 < b.duration := by
  induction evs with
  | nil => simp [compute_blackouts]
  | cons a tail ih =>
    cases tail with
    | nil => simp [compute_blackouts]
    | cons b rest =>
      intro bl hbl
      simp only [compute_blackouts, List.mem_append] at hbl
      rcases hbl with h | h
      · by_cases hgap : 1 < b.timestamp - a.timestamp
        · simp [hgap] at h
          subst h
          simp
          omega
        · simp [hgap] at h
      · exact ih bl h

/-- C3: over a chronologically sorted, duplicate-free event sequence, the
blackout scan emits a blackout for a consecutive pair exactly when the gap
exceeds one minute, with start one minute after the earlier event and
duration gap minus one minute; it reports zero blackouts iff every
consecutive gap is exactly one minute; and every emitted blackout has
strictly positive duration. -/
theorem blackout_stats_spec (evs : List PowerEvent)
    (hsorted : List.Chain' (fun a b => a.timestamp < b.timestamp) evs) :
    compute_blackouts evs = (evs.zip evs.tail).filterMap (fun p =>
        if 1 < p.2.timestamp - p.1.timestamp then
          some ⟨p.1.timestamp + 1, p.2.timestamp - p.1.timestamp - 1⟩
        else none)
    ∧ ((blackout_stats evs).blackout_count = 0 ↔
        ∀ p ∈ evs.zip evs.tail, p.2.timestamp - p.1.timestamp = 1)
    ∧ (∀ b ∈ (blackout_stats evs).blackouts, 0 < b.duration) := by
  refine ⟨compute_blackouts_filterMap evs, ?_, ?_⟩
  · rw [show (blackout_stats evs).blackout_count = (compute_blackouts evs).length from rfl,
      List.length_eq_zero]
    exact compute_blackouts_eq_nil_iff evs hsorted
  · exact compute_blackouts_pos evs

theorem blackout_stats_spec_witness :
    List.Chain' (fun a b => a.timestamp < b.timestamp) [tieEv1, tieEv2] ∧
      ((blackout_stats [tieEv1, tieEv2]).blackout_count = 0 ↔
        ∀ p ∈ ([tieEv1, tieEv2].zip [tieEv1, tieEv2].tail),
          p.2.timestamp - p.1.timestamp = 1) :=
  ⟨by simp [List.chain'_cons, tieEv1, tieEv2], (blackout_stats_spec [tieEv1, tieEv2] (by simp [List.chain'_cons, tieEv1, tieEv2])).2.1⟩


lemma maxBySel_lastArgmax (f : PowerEvent → ℚ) (xs : List PowerEvent)
    (x : PowerEvent) : lastArgmax f (x :: xs) (maxBySel f x xs) := by
  induction xs generalizing x with
  | nil => exact ⟨[], [], rfl, by simp, by simp⟩
  | cons y ys ih =>
    have hstep : maxBySel f x (y :: ys) =
        maxBySel f (if f y < f x then x else y) ys := rfl
    by_cases hy : f y < f x
    · rw [hstep, if_pos hy]
      obtain ⟨l1, l2, hsplit, h1, h2⟩ := ih x
      cases l1 with
      | nil =>
        rw [List.nil_append, List.cons.injEq] at hsplit
        obtain ⟨hxm, hl2⟩ := hsplit
        refine ⟨[], y :: ys, by rw [List.nil_append, ← hxm], by simp, ?_⟩
        intro z hz
        rcases List.mem_cons.1 hz with rfl | hz
        · rw [← hxm]; exact hy
        · rw [hl2] at hz; exact h2 z hz
      | cons a l1t =>
        rw [List.cons_append, List.cons.injEq] at hsplit
        obtain ⟨rfl, hys⟩ := hsplit
        have hxle : f x ≤ f (maxBySel f x ys) :=
          h1 x (List.mem_cons_self x l1t)
        refine ⟨x :: y :: l1t, l2,
          by rw [List.cons_append, List.cons_append, ← hys], ?_, h2⟩
        intro z hz
        rcases List.mem_cons.1 hz with rfl | hz
        · exact hxle
        · rcases List.mem_cons.1 hz with rfl | hz
          · exact le_trans (le_of_lt hy) hxle
          · exact h1 z (List.mem_cons_of_mem x hz)
    · rw [hstep, if_neg hy]
      push_neg at hy
      obtain ⟨l1, l2, hsplit, h1, h2⟩ := ih y
      have hym : f y ≤ f (maxBySel f y ys) := by
        cases l1 with
        | nil =>
          rw [List.nil_append, List.cons.injEq] at hsplit
          rw [← hsplit.1]
        | cons a l1t =>
          rw [List.cons_append, List.cons.injEq] at hsplit
          have ha := h1 a (List.mem_cons_self a l1t)
          rw [← hsplit.1] at ha
          exact ha
      refine ⟨x :: l1, l2, by rw [List.cons_append, hsplit], ?_, h2⟩
      intro z hz
      rcases List.mem_cons.1 hz with rfl | hz
      · exact le_trans hy hym
      · exact h1 z hz

lemma minBySel_firstArgmin (f : PowerEvent → ℚ) (xs : List PowerEvent)
    (x : PowerEvent) : firstArgmin f (x :: xs) (minBySel f x xs) := by
  induction xs generalizing x with
  | nil => exact ⟨[], [], rfl, by simp, by simp⟩
  | cons y ys ih =>
    have hstep : minBySel f x (y :: ys) =
        minBySel f (if f y < f x then y else x) ys := rfl
    by_cases hy : f y < f x
    · rw [hstep, if_pos hy]
      obtain ⟨l1, l2, hsplit, h1, h2⟩ := ih y
      have hym : f (minBySel f y ys) ≤ f y := by
        cases l1 with
        | nil =>
          rw [List.nil_append, List.cons.injEq] at hsplit
          rw [← hsplit.1]
        | cons a l1t =>
          rw [List.cons_append, List.cons.injEq] at hsplit
          have ha := h1 a (List.mem_cons_self a l1t)
          rw [← hsplit.1] at ha
          exact le_of_lt ha
      refine ⟨x :: l1, l2, by rw [List.cons_append, hsplit], ?_, h2⟩
      intro z hz
      rcases List.mem_cons.1 hz with rfl | hz
      · exact lt_of_le_of_lt hym hy
      · exact h1 z hz
    · rw [hstep, if_neg hy]
      push_neg at hy
      obtain ⟨l1, l2, hsplit, h1, h2⟩ := ih x
      cases l1 with
      | nil =>
        rw [List.nil_append, List.cons.injEq] at hsplit
        obtain ⟨hxm, hl2⟩ := hsplit
        refine ⟨[], y :: ys, by rw [List.nil_append, ← hxm], by simp, ?_⟩
        intro z hz
        rcases List.mem_cons.1 hz with rfl | hz
        · rw [← hxm]; exact hy
        · rw [hl2] at hz; exact h2 z hz
      | cons a l1t =>
        rw [List.cons_append, List.cons.injEq] at hsplit
        obtain ⟨rfl, hys⟩ := hsplit
        have hxgt : f (minBySel f x ys) < f x :=
          h1 x (List.mem_cons_self x l1t)
        refine ⟨x :: y :: l1t, l2,
          by rw [List.cons_append, List.cons_append, ← hys], ?_, h2⟩
        intro z hz
        rcases List.mem_cons.1 hz with rfl | hz
        · exact hxgt
        · rcases List.mem_cons.1 hz with rfl | hz
          · exact lt_of_lt_of_le hxgt hy
          · exact h1 z (List.mem_cons_of_mem x hz)

/-- C5 (amended): over a nonempty event sequence, the event `compute_stats`
selects for maximum active power, maximum apparent power and maximum voltage
is the last-occurring one among ties (`Iterator::max_by`), while the event
selected for minimum voltage is the first-occurring one among ties
(`Iterator::min_by`). -/
theorem compute_stats_tie_break (x : PowerEvent) (xs : List PowerEvent) :
    ∃ st, compute_stats (x :: xs) = some st ∧
      lastArgmax (fun e => e.power) (x :: xs) st.max_active_power ∧
      lastArgmax (fun e => e.apparent_power) (x :: xs) st.max_apparent_power ∧
      lastArgmax (fun e => e.voltage) (x :: xs) st.max_voltage ∧
      firstArgmin (fun e => e.voltage) (x :: xs) st.min_voltage := by
  refine ⟨_, rfl, ?_, ?_, ?_, ?_⟩
  · exact maxBySel_lastArgmax _ xs x
  · exact maxBySel_lastArgmax _ xs x
  · exact maxBySel_lastArgmax _ xs x
  · exact minBySel_firstArgmin _ xs x

theorem compute_stats_tie_break_witness :
    ∃ st, compute_stats [tieEv1, tieEv2] = some st ∧
      lastArgmax (fun e => e.power) [tieEv1, tieEv2] st.max_active_power ∧
      lastArgmax (fun e => e.apparent_power) [tieEv1, tieEv2]
        st.max_apparent_power ∧
      lastArgmax (fun e => e.voltage) [tieEv1, tieEv2] st.max_voltage ∧
      firstArgmin (fun e => e.voltage) [tieEv1, tieEv2] st.min_voltage :=
  compute_stats_tie_break tieEv1 [tieEv2]

/-- C7: over a nonempty event sequence, `overall_stats` succeeds, its average
daily consumption is absent exactly when the recorded span is shorter than
one day (1440 minutes), and when present it equals the total active power
divided by the span expressed in days (span seconds over 86400). -/
theorem overall_stats_avg_daily (x : PowerEvent) (xs : List PowerEvent) :
    ∃ info, overall_stats (x :: xs) = some info ∧
      (info.avg_daily_power_consumption = none ↔
        info.«end» - info.start < 1440) ∧
      (∀ q, info.avg_daily_power_consumption = some q →
        q = info.stats.total_active_power /
          ((((info.«end» - info.start) * 60 : Int) : ℚ) / 86400)) := by
  have hgl : (x :: xs).getLast? = some ((x :: xs).getLast (by simp)) :=
    List.getLast?_eq_getLast _ _
  obtain ⟨st, hst⟩ : ∃ st, compute_stats (x :: xs) = some st := ⟨_, rfl⟩
  unfold overall_stats
  rw [hst, hgl, List.head?_cons]
  set gl := (x :: xs).getLast (by simp) with hgldef
  refine ⟨_, rfl, ?_, ?_⟩
  · by_cases hd : 1440 ≤ gl.timestamp - x.timestamp <;> simp [hd] <;> omega
  · intro q hq
    by_cases hd : 1440 ≤ gl.timestamp - x.timestamp
    · simp [hd] at hq
      simp [← hq]
    · simp [hd] at hq

theorem overall_stats_avg_daily_witness :
    ∃ info, overall_stats [tieEv1, tieEv2] = some info ∧
      (info.avg_daily_power_consumption = none ↔
        info.«end» - info.start < 1440) ∧
      (∀ q, info.avg_daily_power_consumption = some q →
        q = info.stats.total_active_power /
          ((((info.«end» - info.start) * 60 : Int) : ℚ) / 86400)) :=
  overall_stats_avg_daily tieEv1 [tieEv2]


lemma distinct_days_nodup (evs : List PowerEvent) :
    (distinct_days evs).Nodup :=
  (List.perm_insertionSort (· ≤ ·) _).symm.nodup (List.nodup_dedup _)

lemma distinct_days_sorted_lt (evs : List PowerEvent) :
    List.Sorted (· < ·) (distinct_days evs) := by
  have hs : List.Sorted (· ≤ ·) (distinct_days evs) :=
    List.sorted_insertionSort (· ≤ ·) _
  have hn := distinct_days_nodup evs
  exact (hs.and hn).imp fun h => lt_of_le_of_ne h.1 h.2

lemma mem_distinct_days (evs : List PowerEvent) (d : Int) :
    d ∈ distinct_days evs ↔ ∃ e ∈ evs, dateOf e.timestamp = d := by
  unfold distinct_days
  rw [(List.perm_insertionSort (· ≤ ·) _).mem_iff, List.mem_dedup,
    List.mem_map]

lemma buckets_flatten_perm (days : List Int) (hnd : days.Nodup) :
    ∀ evs : List PowerEvent, (∀ e ∈ evs, dateOf e.timestamp ∈ days) →
      List.Perm ((days.map (filter_power_data evs)).flatten) evs := by
  induction days with
  | nil =>
    intro evs hc
    cases evs with
    | nil => simp
    | cons a t => exact absurd (hc a (by simp)) (by simp)
  | cons d ds ih =>
    intro evs hc
    rw [List.nodup_cons] at hnd
    obtain ⟨hd_nmem, hds_nodup⟩ := hnd
    simp only [List.map_cons, List.flatten_cons]
    refine List.Perm.trans ?_
      (List.filter_append_perm (fun e => dateOf e.timestamp == d) evs)
    refine List.Perm.append_left _ ?_
    have hmapeq : ds.map (filter_power_data evs) =
        ds.map (filter_power_data
          (evs.filter (fun e => !(dateOf e.timestamp == d)))) := by
      apply List.map_congr_left
      intro d' hd'
      have hdne : d' ≠ d := fun h => hd_nmem (h ▸ hd')
      unfold filter_power_data
      rw [List.filter_filter]
      apply List.filter_congr
      intro e _
      by_cases h : dateOf e.timestamp = d'
      · simp [h]
        exact hdne
      · simp [h]
    rw [hmapeq]
    refine ih hds_nodup _ ?_
    intro e he
    have hmem := hc e (List.mem_of_mem_filter he)
    have hne : dateOf e.timestamp ≠ d := by
      have := List.of_mem_filter he
      simpa using this
    rcases List.mem_cons.1 hmem with h | h
    · exact absurd h hne
    · exact h

lemma daily_buckets_disjoint (evs : List PowerEvent) :
    (distinct_days evs).Pairwise
      (fun d1 d2 => ∀ e ∈ filter_power_data evs d1,
        e ∉ filter_power_data evs d2) := by
  refine (distinct_days_nodup evs).imp ?_
  intro d1 d2 hne e he1 he2
  have h1 := List.of_mem_filter he1
  have h2 := List.of_mem_filter he2
  simp only [beq_iff_eq] at h1 h2
  exact hne (by rw [← h1, ← h2])

lemma daily_stats_stats_isSome (evs : List PowerEvent) :
    ∀ i ∈ daily_stats evs, i.stats.isSome = true := by
  intro i hi
  unfold daily_stats at hi
  obtain ⟨d, hd, rfl⟩ := List.mem_map.1 hi
  obtain ⟨e, he, hde⟩ := (mem_distinct_days evs d).1 hd
  have hef : e ∈ filter_power_data evs d :=
    List.mem_filter.2 ⟨he, by simp [hde]⟩
  cases hfp : filter_power_data evs d with
  | nil => rw [hfp] at hef; cases hef
  | cons a t => simp [hfp, compute_stats]

/-- C8: `daily_stats` partitions the input exactly — the per-day buckets are
pairwise disjoint by calendar date, their union is (a permutation of) the
full event set, there is exactly one entry per distinct date (the date list
is strictly sorted ascending and exhausts the input's dates), and every
per-day `compute_stats` succeeds. -/
theorem daily_stats_partition (evs : List PowerEvent) :
    ((daily_stats evs).map (fun i => i.date) = distinct_days evs) ∧
      List.Sorted (· < ·) ((daily_stats evs).map (fun i => i.date)) ∧
      (∀ d : Int, (d ∈ (daily_stats evs).map (fun i => i.date)) ↔
        ∃ e ∈ evs, dateOf e.timestamp = d) ∧
      List.Perm (((daily_stats evs).map
        (fun i => filter_power_data evs i.date)).flatten) evs ∧
      ((daily_stats evs).map (fun i => i.date)).Pairwise
        (fun d1 d2 => ∀ e ∈ filter_power_data evs d1,
          e ∉ filter_power_data evs d2) ∧
      (∀ i ∈ daily_stats evs, i.stats.isSome = true) := by
  have hmap : (daily_stats evs).map (fun i => i.date) = distinct_days evs := by
    unfold daily_stats
    rw [List.map_map]
    exact List.map_id'' (fun x => rfl) _
  have hbuckets : (daily_stats evs).map
      (fun i => filter_power_data evs i.date) =
      (distinct_days evs).map (filter_power_data evs) := by
    unfold daily_stats
    rw [List.map_map]
    rfl
  refine ⟨hmap, ?_, ?_, ?_, ?_, daily_stats_stats_isSome evs⟩
  · rw [hmap]; exact distinct_days_sorted_lt evs
  · intro d; rw [hmap]; exact mem_distinct_days evs d
  · rw [hbuckets]
    refine buckets_flatten_perm (distinct_days evs)
      (distinct_days_nodup evs) evs ?_
    intro e he
    exact (mem_distinct_days evs (dateOf e.timestamp)).2 ⟨e, he, rfl⟩
  · rw [hmap]; exact daily_buckets_disjoint evs

theorem daily_stats_partition_witness :
    List.Perm (((daily_stats [tieEv1, tieEv2]).map
        (fun i => filter_power_data [tieEv1, tieEv2] i.date)).flatten)
      [tieEv1, tieEv2] :=
  (daily_stats_partition [tieEv1, tieEv2]).2.2.2.1


lemma getD_drop (l : List Nat) : ∀ n j : Nat,
    (l.drop n).getD j 0 = l.getD (n + j) 0 := by
  induction l with
  | nil => intro n j; simp
  | cons a t ih =>
    intro n j
    cases n with
    | zero => simp
    | succ n =>
      rw [List.drop_succ_cons, ih n j,
        show n + 1 + j = (n + j) + 1 from by omega]
      rfl

lemma list_len5 {l : List Nat} (h : l.length = 5) :
    ∃ a b c d e, l = [a, b, c, d, e] := by
  cases l with
  | nil => simp at h
  | cons a l =>
    cases l with
    | nil => simp at h
    | cons b l =>
      cases l with
      | nil => simp at h
      | cons c l =>
        cases l with
        | nil => simp at h
        | cons d l =>
          cases l with
          | nil => simp at h
          | cons e l =>
            cases l with
            | nil => exact ⟨a, b, c, d, e, rfl⟩
            | cons f l => simp at h

lemma decode_timestamp_localize (tz : TzModel) (buf : List Nat) (off : Nat)
    (ts rest : List Nat) (hoff : off ≤ buf.length)
    (hdrop : buf.drop off = ts ++ rest) (h5 : ts.length = 5) :
    decode_timestamp tz buf off = decode_timestamp tz ts 0 := by
  obtain ⟨a, b, c, d, e, rfl⟩ := list_len5 h5
  have hlen : buf.length - off = 5 + rest.length := by
    have hl := congrArg List.length hdrop
    simp at hl
    omega
  have hle : off + 5 ≤ buf.length := by omega
  have h0 : buf.getD (off + 0) 0 = a := by rw [← getD_drop, hdrop]; rfl
  have h1 : buf.getD (off + 1) 0 = b := by rw [← getD_drop, hdrop]; rfl
  have h2 : buf.getD (off + 2) 0 = c := by rw [← getD_drop, hdrop]; rfl
  have h3 : buf.getD (off + 3) 0 = d := by rw [← getD_drop, hdrop]; rfl
  have h4 : buf.getD (off + 4) 0 = e := by rw [← getD_drop, hdrop]; rfl
  simp only [List.getD_eq_getElem?_getD] at h0 h1 h2 h3 h4
  have h0' : buf[off]?.getD 0 = a := h0
  simp [decode_timestamp, hle, h0', h1, h2, h3, h4]


lemma parseLoop_records (tz : TzModel) (buf : List Nat)
    (recs : List (List Nat)) :
    ∀ (off : Nat) (start : Int) (mi : Nat) (acc : List PowerEvent)
      (rest : List Nat), off ≤ buf.length →
      buf.drop off = recs.flatten ++ rest →
      (∀ r ∈ recs, goodRec r) →
      parseLoop tz buf off start mi acc =
        parseLoop tz buf (off + recs.flatten.length) start (mi + recs.length)
          (acc ++ recsEvents start mi recs) := by
  induction recs with
  | nil =>
    intro off start mi acc rest hoff hdrop hgood
    simp [recsEvents]
  | cons r rs ih =>
    intro off start mi acc rest hoff hdrop hgood
    obtain ⟨hr5, hv1, hv2⟩ := hgood r (by simp)
    obtain ⟨a, b, c, d, e, rfl⟩ := list_len5 hr5
    have hv1' : 1500 < a * 256 + b := hv1
    have hv2' : a * 256 + b < 2500 := hv2
    have ha9 : a ≤ 9 := by omega
    have hdrop' : buf.drop off = a :: b :: c :: d :: e :: (rs.flatten ++ rest) := by
      rw [hdrop]
      simp [List.append_assoc]
    have hlen : off + 5 ≤ buf.length := by
      have hl := congrArg List.length hdrop'
      simp at hl
      omega
    -- byte access facts
    have g0 : buf.getD (off + 0) 0 = a := by rw [← getD_drop, hdrop']; rfl
    have g1 : buf.getD (off + 1) 0 = b := by rw [← getD_drop, hdrop']; rfl
    have g2 : buf.getD (off + 2) 0 = c := by rw [← getD_drop, hdrop']; rfl
    have g3 : buf.getD (off + 3) 0 = d := by rw [← getD_drop, hdrop']; rfl
    have g4 : buf.getD (off + 4) 0 = e := by rw [← getD_drop, hdrop']; rfl
    simp only [List.getD_eq_getElem?_getD] at g0 g1 g2 g3 g4
    have g0' : buf[off]?.getD 0 = a := g0
    -- decode_power evaluates to the record's event payload
    have hdp : decode_power buf off = Except.ok
        (((a * 256 + b : Nat) : ℚ) / 10, ((c * 256 + d : Nat) : ℚ) / 1000,
         ((e : Nat) : ℚ) / 100,
         (((a * 256 + b : Nat) : ℚ) / 10) * (((c * 256 + d : Nat) : ℚ) / 1000) *
           (((e : Nat) : ℚ) / 100) / 1000,
         (((a * 256 + b : Nat) : ℚ) / 10) * (((c * 256 + d : Nat) : ℚ) / 1000) / 1000) := by
      have hb2 : off + 2 ≤ buf.length := by omega
      have hb4 : off + 4 ≤ buf.length := by omega
      have hb5 : off + 5 ≤ buf.length := by omega
      simp [decode_power, hb2, hb4, hb5, g0', g1, g2, g3, g4, hv1', hv2']
    -- one unfolding of the loop consumes the record
    have htake3 : (buf.drop off).take 3 = [a, b, c] := by rw [hdrop']; rfl
    have htake4 : (buf.drop off).take 4 = [a, b, c, d] := by rw [hdrop']; rfl
    have hstep : parseLoop tz buf off start mi acc =
        parseLoop tz buf (off + 5) start (mi + 1)
          (acc ++ [recEvent [a, b, c, d, e] (start + (mi : Int))]) := by
      rw [parseLoop]
      rw [dif_pos (show off + 3 ≤ buf.length by omega)]
      rw [if_neg (show ¬(buf.drop off).take 3 = MAGIC from by
        rw [htake3]; simp [MAGIC]; omega)]
      rw [dif_pos (show off + 4 ≤ buf.length by omega)]
      rw [if_neg (show ¬(buf.drop off).take 4 = END_OF_DATA from by
        rw [htake4]; simp [END_OF_DATA]; omega)]
      rw [hdp]
      rfl
    rw [hstep]
    have hdrop'' : buf.drop (off + 5) = rs.flatten ++ rest := by
      rw [← List.drop_drop, hdrop']
      rfl
    rw [ih (off + 5) start (mi + 1) (acc ++ [recEvent [a, b, c, d, e] (start + (mi : Int))]) rest
      (by omega) hdrop'' (fun r hr => hgood r (by simp [hr]))]
    rw [show off + 5 + rs.flatten.length = off + ([a, b, c, d, e] :: rs).flatten.length from by
      rw [List.flatten_cons, List.length_append]
      simp only [List.length_cons, List.length_nil]
      omega]
    rw [show mi + 1 + rs.length = mi + ([a, b, c, d, e] :: rs).length from by
      simp; omega]
    rw [show (acc ++ [recEvent [a, b, c, d, e] (start + (mi : Int))]) ++
        recsEvents start (mi + 1) rs =
        acc ++ recsEvents start mi ([a, b, c, d, e] :: rs) from by
      rw [List.append_assoc]
      rfl]


lemma parseLoop_blocks (tz : TzModel) (buf : List Nat)
    (blocks : List (List Nat × List (List Nat))) :
    ∀ (off : Nat) (start : Int) (mi : Nat) (acc : List PowerEvent),
      off ≤ buf.length →
      buf.drop off = (blocks.map encBlock).flatten ++ END_OF_DATA →
      (∀ b ∈ blocks, b.1.length = 5) →
      (∀ b ∈ blocks, (decode_timestamp tz b.1 0).isOk = true) →
      (∀ b ∈ blocks, ∀ r ∈ b.2, goodRec r) →
      parseLoop tz buf off start mi acc =
        ParseResult.ok
          (acc ++ (blocks.map (fun b => blockEvents tz b.1 b.2)).flatten) := by
  induction blocks with
  | nil =>
    intro off start mi acc hoff hdrop hts hok hrec
    simp only [List.map_nil, List.flatten_nil, List.nil_append] at hdrop
    have hdrop' : buf.drop off = 0xFF :: 0xFF :: 0xFF :: 0xFF :: [] := by
      rw [hdrop]; rfl
    have hlen : off + 4 ≤ buf.length := by
      have hl := congrArg List.length hdrop'
      simp at hl
      omega
    have htake3 : (buf.drop off).take 3 = [0xFF, 0xFF, 0xFF] := by
      rw [hdrop']; rfl
    have htake4 : (buf.drop off).take 4 = END_OF_DATA := by
      rw [hdrop']; rfl
    rw [parseLoop]
    rw [dif_pos (show off + 3 ≤ buf.length by omega)]
    rw [if_neg (show ¬(buf.drop off).take 3 = MAGIC from by
      rw [htake3]; simp [MAGIC])]
    rw [dif_pos hlen]
    rw [if_pos htake4]
    simp
  | cons blk bs ih =>
    intro off start mi acc hoff hdrop hts hok hrec
    obtain ⟨ts, recs⟩ := blk
    have hts5 : ts.length = 5 := hts (ts, recs) (by simp)
    have hdrop' : buf.drop off = 0xE0 :: 0xC5 :: 0xEA ::
        (ts ++ (recs.flatten ++ ((bs.map encBlock).flatten ++ END_OF_DATA))) := by
      rw [hdrop]
      simp [encBlock, MAGIC, List.append_assoc]
    have hlen : off + 8 + recs.flatten.length ≤ buf.length := by
      have hl := congrArg List.length hdrop'
      simp [END_OF_DATA] at hl
      have he : recs.flatten.length = (List.map List.length recs).sum := by
        simp
      omega
    have htake3 : (buf.drop off).take 3 = MAGIC := by
      rw [hdrop']; rfl
    have hdrop3 : buf.drop (off + 3) =
        ts ++ (recs.flatten ++ ((bs.map encBlock).flatten ++ END_OF_DATA)) := by
      rw [← List.drop_drop, hdrop']
      rfl
    -- the block timestamp decodes as it does on its own five bytes
    obtain ⟨t, hdto⟩ : ∃ t, decode_timestamp tz ts 0 = Except.ok t := by
      cases hd : decode_timestamp tz ts 0 with
      | ok t => exact ⟨t, rfl⟩
      | error p =>
        have := hok (ts, recs) (by simp)
        rw [hd] at this
        simp [Except.isOk, Except.toBool] at this
    have hdt : decode_timestamp tz buf (off + 3) = Except.ok t := by
      rw [decode_timestamp_localize tz buf (off + 3) ts _ (by omega) hdrop3 hts5]
      exact hdto
    have hdrop8 : buf.drop (off + 8) =
        recs.flatten ++ ((bs.map encBlock).flatten ++ END_OF_DATA) := by
      rw [show off + 8 = off + 3 + 5 from by omega, ← List.drop_drop, hdrop3,
        List.drop_left' hts5]
    have hgoodrecs : ∀ r ∈ recs, goodRec r := hrec (ts, recs) (by simp)
    rw [parseLoop]
    rw [dif_pos (show off + 3 ≤ buf.length by omega)]
    rw [if_pos htake3]
    rw [hdt]
    show parseLoop tz buf (off + 8) t 0 acc = _
    rw [parseLoop_records tz buf recs (off + 8) t 0 acc _ (by omega) hdrop8
      hgoodrecs]
    have hdropNext : buf.drop (off + 8 + recs.flatten.length) =
        (bs.map encBlock).flatten ++ END_OF_DATA := by
      rw [← List.drop_drop, hdrop8, List.drop_left]
    rw [ih (off + 8 + recs.flatten.length) t (0 + recs.length)
      (acc ++ recsEvents t 0 recs) hlen hdropNext
      (fun b hb => hts b (by simp [hb]))
      (fun b hb => hok b (by simp [hb]))
      (fun b hb => hrec b (by simp [hb]))]
    simp [blockEvents, hdto, List.append_assoc]


lemma recsEvents_length (start : Int) : ∀ (mi : Nat) (recs : List (List Nat)),
    (recsEvents start mi recs).length = recs.length := by
  intro mi recs
  induction recs generalizing mi with
  | nil => rfl
  | cons r rs ih => simp [recsEvents, ih]

lemma recsEvents_get_timestamp (start : Int) :
    ∀ (recs : List (List Nat)) (mi i : Nat)
      (h : i < (recsEvents start mi recs).length),
      ((recsEvents start mi recs).get ⟨i, h⟩).timestamp =
        start + (mi : Int) + (i : Int) := by
  intro recs
  induction recs with
  | nil => intro mi i h; simp [recsEvents] at h
  | cons r rs ih =>
    intro mi i h
    cases i with
    | zero => simp [recsEvents, recEvent]
    | succ i =>
      have hstep : ((recsEvents start mi (r :: rs)).get
          ⟨i + 1, h⟩).timestamp =
          ((recsEvents start (mi + 1) rs).get ⟨i, by
            have := h
            simp [recsEvents] at this
            simpa [recsEvents_length] using this⟩).timestamp := rfl
      rw [hstep, ih]
      push_cast
      ring

lemma parse_encBuffer (tz : TzModel) (b0 : List Nat × List (List Nat))
    (blocks : List (List Nat × List (List Nat)))
    (hinit : (tz.toInstant (wallMinutes 2000 1 1 0 0)).isSome = true)
    (hts : ∀ b ∈ b0 :: blocks, b.1.length = 5)
    (hok : ∀ b ∈ b0 :: blocks, (decode_timestamp tz b.1 0).isOk = true)
    (hrec : ∀ b ∈ b0 :: blocks, ∀ r ∈ b.2, goodRec r) :
    parse tz (encBuffer (b0 :: blocks)) =
      ParseResult.ok
        (((b0 :: blocks).map (fun b => blockEvents tz b.1 b.2)).flatten) := by
  obtain ⟨s0, hs0⟩ : ∃ s0, tz.toInstant (wallMinutes 2000 1 1 0 0) = some s0 := by
    cases h : tz.toInstant (wallMinutes 2000 1 1 0 0) with
    | some s => exact ⟨s, rfl⟩
    | none => rw [h] at hinit; simp at hinit
  have hstart : encBuffer (b0 :: blocks) = 0xE0 :: 0xC5 :: 0xEA ::
      (b0.1 ++ (b0.2.flatten ++
        ((blocks.map encBlock).flatten ++ END_OF_DATA))) := by
    simp [encBuffer, encBlock, List.append_assoc, MAGIC]
  have hlen3 : 3 ≤ (encBuffer (b0 :: blocks)).length := by
    rw [hstart]; simp
  have htake : (encBuffer (b0 :: blocks)).take 3 = MAGIC := by
    rw [hstart]; rfl
  unfold parse
  simp only [hs0]
  rw [if_pos hlen3, if_pos htake]
  rw [parseLoop_blocks tz (encBuffer (b0 :: blocks)) (b0 :: blocks) 0 s0 0 []
    (Nat.zero_le _) (by rw [List.drop_zero]; rfl) hts hok hrec]
  simp

/-- C1: a valid buffer decodes to one event per measurement record.  For a
buffer of concatenated blocks followed by the end-of-data marker, `parse`
returns exactly the per-block event runs; within a block of start instant `t`
there are exactly as many events as records and the `i`-th has timestamp
`t + i` minutes (so each block header resets the minute counter and each
block's first record carries exactly the block-start timestamp); and a buffer
of header, timestamp and immediately the end-of-data marker yields zero
events and no error. -/
theorem parse_block_structure (tz : TzModel)
    (b0 : List Nat × List (List Nat))
    (blocks : List (List Nat × List (List Nat)))
    (hinit : (tz.toInstant (wallMinutes 2000 1 1 0 0)).isSome = true)
    (hts : ∀ b ∈ b0 :: blocks, b.1.length = 5)
    (hok : ∀ b ∈ b0 :: blocks, (decode_timestamp tz b.1 0).isOk = true)
    (hrec : ∀ b ∈ b0 :: blocks, ∀ r ∈ b.2, goodRec r) :
    (parse tz (encBuffer (b0 :: blocks)) =
      ParseResult.ok
        (((b0 :: blocks).map (fun b => blockEvents tz b.1 b.2)).flatten)) ∧
    (∀ ts recs t, decode_timestamp tz ts 0 = Except.ok t →
      (blockEvents tz ts recs).length = recs.length ∧
      ∀ i (h : i < (blockEvents tz ts recs).length),
        ((blockEvents tz ts recs).get ⟨i, h⟩).timestamp = t + (i : Int)) ∧
    (∀ ts, ts.length = 5 → (decode_timestamp tz ts 0).isOk = true →
      parse tz (encBuffer [(ts, [])]) = ParseResult.ok []) := by
  refine ⟨parse_encBuffer tz b0 blocks hinit hts hok hrec, ?_, ?_⟩
  · intro ts recs t hdt
    have hbe : blockEvents tz ts recs = recsEvents t 0 recs := by
      simp [blockEvents, hdt]
    constructor
    · rw [hbe, recsEvents_length]
    · intro i h
      have hg := List.get_of_eq hbe ⟨i, h⟩
      rw [hg, recsEvents_get_timestamp]
      simp
  · intro ts h5 hok'
    rw [parse_encBuffer tz (ts, []) [] hinit
      (by intro b hb; simp at hb; subst hb; exact h5)
      (by intro b hb; simp at hb; subst hb; exact hok')
      (by intro b hb r hr; simp at hb; subst hb; simp at hr)]
    obtain ⟨t, hdto⟩ : ∃ t, decode_timestamp tz ts 0 = Except.ok t := by
      cases hd : decode_timestamp tz ts 0 with
      | ok t => exact ⟨t, rfl⟩
      | error p =>
        rw [hd] at hok'
        simp [Except.isOk, Except.toBool] at hok'
    simp [blockEvents, hdto, recsEvents]


theorem parse_block_structure_witness :
    parse utcTz (encBuffer [([9, 11, 14, 18, 43], [[8, 198, 1, 190, 87]])]) =
      ParseResult.ok
        ((([([9, 11, 14, 18, 43], [[8, 198, 1, 190, 87]])]).map
          (fun b => blockEvents utcTz b.1 b.2)).flatten) :=
  (parse_block_structure utcTz ([9, 11, 14, 18, 43], [[8, 198, 1, 190, 87]]) []
    (by decide) (by decide) (by decide) (by decide)).1


lemma decode_timestamp_fixedTz (o : Int) (buf : List Nat) (off : Nat) :
    decode_timestamp (fixedTz o) buf off =
      match decode_timestamp utcTz buf off with
      | Except.ok t => Except.ok (t - o)
      | Except.error p => Except.error p := by
  simp only [decode_timestamp, utcTz, fixedTz]
  split
  · split
    · rfl
    · rfl
  · rfl

lemma parseLoop_fixedTz (o : Int) (buf : List Nat) :
    ∀ (n off : Nat) (start : Int) (mi : Nat) (acc : List PowerEvent),
      buf.length - off ≤ n →
      parseLoop (fixedTz o) buf off (start - o) mi
          (acc.map (shiftEvent (-o))) =
        shiftResult (-o) (parseLoop utcTz buf off start mi acc) := by
  intro n
  induction n with
  | zero =>
    intro off start mi acc hn
    rw [parseLoop, parseLoop]
    rw [dif_neg (show ¬off + 3 ≤ buf.length by omega),
      dif_neg (show ¬off + 3 ≤ buf.length by omega)]
    rfl
  | succ n ih =>
    intro off start mi acc hn
    rw [parseLoop, parseLoop]
    by_cases h3 : off + 3 ≤ buf.length
    · rw [dif_pos h3, dif_pos h3]
      by_cases hm : (buf.drop off).take 3 = MAGIC
      · rw [if_pos hm, if_pos hm]
        rw [decode_timestamp_fixedTz]
        cases hdt : decode_timestamp utcTz buf (off + 3) with
        | error p => rfl
        | ok t =>
          show parseLoop (fixedTz o) buf (off + 8) (t - o) 0
              (acc.map (shiftEvent (-o))) = _
          rw [ih (off + 8) t 0 acc (by omega)]
      · rw [if_neg hm, if_neg hm]
        by_cases h4 : off + 4 ≤ buf.length
        · rw [dif_pos h4, dif_pos h4]
          by_cases he : (buf.drop off).take 4 = END_OF_DATA
          · rw [if_pos he, if_pos he]
            rfl
          · rw [if_neg he, if_neg he]
            cases hdp : decode_power buf off with
            | error p => rfl
            | ok pd =>
              show parseLoop (fixedTz o) buf (off + 5) (start - o) (mi + 1)
                  (acc.map (shiftEvent (-o)) ++
                    [⟨start - o + (mi : Int), pd.1, pd.2.1, pd.2.2.1,
                      pd.2.2.2.1, pd.2.2.2.2⟩]) = _
              rw [show acc.map (shiftEvent (-o)) ++
                  [(⟨start - o + (mi : Int), pd.1, pd.2.1, pd.2.2.1,
                    pd.2.2.2.1, pd.2.2.2.2⟩ : PowerEvent)] =
                  (acc ++ [(⟨start + (mi : Int), pd.1, pd.2.1, pd.2.2.1,
                    pd.2.2.2.1, pd.2.2.2.2⟩ : PowerEvent)]).map
                    (shiftEvent (-o)) from by
                simp [shiftEvent]
                ring]
              rw [ih (off + 5) start (mi + 1)
                (acc ++ [(⟨start + (mi : Int), pd.1, pd.2.1, pd.2.2.1,
                  pd.2.2.2.1, pd.2.2.2.2⟩ : PowerEvent)]) (by omega)]
        · rw [dif_neg h4, dif_neg h4]
          rfl
    · rw [dif_neg h3, dif_neg h3]
      rfl

/-- C9 (amended): `parse` is a deterministic function of the byte buffer and
the system timezone setting — not of the buffer alone.  Under a fixed-offset
timezone `o` minutes ahead of offset zero, the whole result is the
offset-zero result with every event instant shifted by `-o`, so environments
with different offsets decode the same buffer to different event
sequences. -/
theorem parse_fixed_offset_shift (o : Int) (buf : List Nat) :
    parse (fixedTz o) buf = shiftResult (-o) (parse utcTz buf) := by
  show (if 3 ≤ buf.length then
      if buf.take 3 = MAGIC then
        parseLoop (fixedTz o) buf 0 (wallMinutes 2000 1 1 0 0 - o) 0 []
      else ParseResult.invalidData
    else ParseResult.panicked Panic.bounds) =
    shiftResult (-o)
      (if 3 ≤ buf.length then
        if buf.take 3 = MAGIC then
          parseLoop utcTz buf 0 (wallMinutes 2000 1 1 0 0) 0 []
        else ParseResult.invalidData
      else ParseResult.panicked Panic.bounds)
  by_cases h3 : 3 ≤ buf.length
  · rw [if_pos h3, if_pos h3]
    by_cases hm : buf.take 3 = MAGIC
    · rw [if_pos hm, if_pos hm]
      have h := parseLoop_fixedTz o buf buf.length 0
        (wallMinutes 2000 1 1 0 0) 0 [] (by omega)
      simpa using h
    · rw [if_neg hm, if_neg hm]
      rfl
  · rw [if_neg h3, if_neg h3]
    rfl

end Voltcraft
